import Mathlib

/-!
Shallow embedding of `src/utils/shell.py` (class `ShellUtil`) and the
subprocess-launching loop it drives.

Python strings are modelled as `List Char`.  `str.strip()`, `str.split(';')`
and `str.split()` (whitespace tokenization) are modelled by `pyStrip`,
`splitSemi` and `pyTokens` below, following CPython semantics:
`split(';')` keeps empty segments and returns `[""]` on the empty string;
`split()` with no argument drops empty tokens entirely.
-/

namespace ShellUtil

/-- ASCII whitespace, the characters `str.strip()` / `str.split()` treat as
whitespace: space, tab, newline, carriage return, vertical tab, form feed. -/
def pyIsSpace (c : Char) : Bool :=
  c = ' ' || c = '\t' || c = '\n' || c = '\r' || c = '\x0b' || c = '\x0c'

/-- Python `s.lstrip()`. -/
def lstrip (s : List Char) : List Char := s.dropWhile pyIsSpace

/-- Python `s.rstrip()`. -/
def rstrip (s : List Char) : List Char := (s.reverse.dropWhile pyIsSpace).reverse

/-- Python `s.strip()`: drop whitespace from both ends. -/
def pyStrip (s : List Char) : List Char := rstrip (lstrip s)

/-- Python `s.split(';')`: split on every `';'`, keeping empty segments;
the result is always non-empty and `"".split(';') == ['']`. -/
def splitSemi : List Char → List (List Char)
  | [] => [[]]
  | c :: cs =>
    if c = ';' then [] :: splitSemi cs
    else
      match splitSemi cs with
      | [] => [[c]]
      | t :: ts => (c :: t) :: ts

/-- Scanner for Python `s.split()` with no argument: `cur` holds the
characters of the token being read, in reverse; a whitespace character (or
the end of the string) closes the current token, and empty tokens are never
emitted. -/
def pyTokensGo (cur : List Char) : List Char → List (List Char)
  | [] => if cur.isEmpty then [] else [cur.reverse]
  | c :: cs =>
    if pyIsSpace c then
      if cur.isEmpty then pyTokensGo [] cs
      else cur.reverse :: pyTokensGo [] cs
    else pyTokensGo (c :: cur) cs

/-- Python `s.split()` with no argument: the maximal runs of non-whitespace
characters, in order (so the result can be `[]`, and no token is empty). -/
def pyTokens (s : List Char) : List (List Char) := pyTokensGo [] s

/-- `ShellUtil._get_commands`: `[command.split() for command in commands if len(command) > 0]`.
The guard tests the length of the raw segment, before any stripping. -/
def _get_commands (commands : List (List Char)) : List (List (List Char)) :=
  (commands.filter (fun c => 0 < c.length)).map pyTokens

/-- `ShellUtil._get_commands_from_str`:
`command_to_execute.strip().split(';')` fed to `_get_commands`. -/
def _get_commands_from_str (s : List Char) : List (List (List Char)) :=
  _get_commands (splitSemi (pyStrip s))

/-- The Python values relevant to `parse_shell_command` / `subprocess_run`:
strings, lists, tuples, and a non-string non-sequence representative (`int`). -/
inductive PyVal
  | str : List Char → PyVal
  | list : List PyVal → PyVal
  | tuple : List PyVal → PyVal
  | int : Int → PyVal

/-- The exceptions the embedded code can raise.  `typeError` is the
`TypeError('command_to_execute must be a string, list or tuple of commands')`
of `parse_shell_command` (the spec's InvalidSpecType); `attributeError` is the
`AttributeError` raised by `.strip()` on a non-string; `launchFailure` models
an exception escaping `subprocess.run` when the child process cannot be
started (e.g. `FileNotFoundError`). -/
inductive PyError
  | typeError
  | attributeError
  | launchFailure
deriving DecidableEq

/-- Calling `_get_commands_from_str` on an arbitrary Python value: the body
immediately invokes `.strip()` on its argument, so a non-string argument
raises `AttributeError` before anything else happens. -/
def _get_commands_from_val : PyVal → Except PyError (List (List (List Char)))
  | PyVal.str s => Except.ok (_get_commands_from_str s)
  | _ => Except.error PyError.attributeError

/-- The list/tuple branch of `parse_shell_command`:
`commands_to_run += ShellUtil._get_commands_from_str(command)` for each
element in order, propagating the first exception raised. -/
def parse_elements : List PyVal → Except PyError (List (List (List Char)))
  | [] => Except.ok []
  | x :: xs =>
    match _get_commands_from_val x with
    | Except.error e => Except.error e
    | Except.ok h =>
      match parse_elements xs with
      | Except.error e => Except.error e
      | Except.ok t => Except.ok (h ++ t)

/-- `ShellUtil.parse_shell_command`: dispatch on the runtime type of the
argument — `str` goes to `_get_commands_from_str`, `list`/`tuple` iterate
element-wise, anything else raises `TypeError`. -/
def parse_shell_command : PyVal → Except PyError (List (List (List Char)))
  | PyVal.str s => Except.ok (_get_commands_from_str s)
  | PyVal.list xs => parse_elements xs
  | PyVal.tuple xs => parse_elements xs
  | PyVal.int _ => Except.error PyError.typeError

/-- Model of the operating system as seen through `subprocess.run` with the
default `check=False`: launching an argument vector either raises
(`none`, e.g. the executable does not exist) or runs the child to completion
and returns its exit status (`some code`) — a non-zero exit status is NOT an
exception under `check=False`. -/
structure ProcEnv where
  launch : List (List Char) → Option Int

/-- The loop of `subprocess_run`: `subprocess.run(command, **kwargs)` for each
vector in order.  Returns the final outcome together with the list of vectors
whose child process was actually launched; an exception at launch stops the
loop, while exit codes are ignored (`check=False`). -/
def run_vectors (env : ProcEnv) :
    List (List (List Char)) → Except PyError Unit × List (List (List Char))
  | [] => (Except.ok (), [])
  | v :: vs =>
    match env.launch v with
    | none => (Except.error PyError.launchFailure, [])
    | some _ =>
      let r := run_vectors env vs
      (r.1, v :: r.2)

/-- `ShellUtil.subprocess_run`: parse the spec, then run every parsed vector
in order.  The second component records which vectors were launched (none,
when parsing already raised). -/
def subprocess_run (env : ProcEnv) (commands : PyVal) :
    Except PyError Unit × List (List (List Char)) :=
  match parse_shell_command commands with
  | Except.error e => (Except.error e, [])
  | Except.ok vecs => run_vectors env vecs

/-- The comprehension's intermediate value in `_get_commands` when fed the
segments of `_get_commands_from_str`: the raw `';'`-separated segments of the
stripped input that survive the `len(command) > 0` guard.  Each output vector
of `_get_commands_from_str` is `pyTokens` of exactly one kept segment. -/
def keptSegments (s : List Char) : List (List Char) :=
  (splitSemi (pyStrip s)).filter (fun c => 0 < c.length)

/-- An operating system in which `false` exists and exits with status 1,
`echo hi` exists and exits with status 0, and nothing else can be launched. -/
def envC2 : ProcEnv :=
  ⟨fun v =>
    if v = ["false".toList] then some 1
    else if v = ["echo".toList, "hi".toList] then some 0
    else none⟩

/-! ### Lemmas about `splitSemi` -/

theorem splitSemi_ne_nil (s : List Char) : splitSemi s ≠ [] := by
  induction s with
  | nil => simp [splitSemi]
  | cons c cs ih =>
    simp only [splitSemi]
    split
    · simp
    · match h : splitSemi cs with
      | [] => simp
      | t :: ts => simp

theorem splitSemi_of_not_mem {s : List Char} (h : ';' ∉ s) : splitSemi s = [s] := by
  induction s with
  | nil => simp [splitSemi]
  | cons c cs ih =>
    have hc : ¬ c = ';' := fun hc => h (hc ▸ List.mem_cons_self c cs)
    have hcs : ';' ∉ cs := fun hm => h (List.mem_cons_of_mem c hm)
    simp only [splitSemi, if_neg hc, ih hcs]

theorem splitSemi_append {a b : List Char} (ha : ';' ∉ a) :
    splitSemi (a ++ ';' :: b) = a :: splitSemi b := by
  induction a with
  | nil => simp [splitSemi]
  | cons c cs ih =>
    have hc : ¬ c = ';' := fun hc => ha (hc ▸ List.mem_cons_self c cs)
    have hcs : ';' ∉ cs := fun hm => ha (List.mem_cons_of_mem c hm)
    simp only [List.cons_append, splitSemi, if_neg hc, List.append_eq, ih hcs]

theorem not_mem_of_mem_splitSemi {s c : List Char} (h : c ∈ splitSemi s) : ';' ∉ c := by
  induction s generalizing c with
  | nil =>
    simp only [splitSemi, List.mem_singleton] at h
    subst h; simp
  | cons x xs ih =>
    simp only [splitSemi] at h
    by_cases hx : x = ';'
    · rw [if_pos hx] at h
      rcases List.mem_cons.mp h with h | h
      · subst h; simp
      · exact ih h
    · rw [if_neg hx] at h
      match hs : splitSemi xs with
      | [] => exact absurd hs (splitSemi_ne_nil xs)
      | t :: ts =>
        rw [hs] at h
        rcases List.mem_cons.mp h with h | h
        · subst h
          intro hm
          rcases List.mem_cons.mp hm with h | h
          · exact hx h.symm
          · exact ih (hs ▸ List.mem_cons_self t ts) h
        · exact ih (hs ▸ List.mem_cons_of_mem t h)

/-! ### Lemmas about `dropWhile` (helpers for `lstrip` / `rstrip`) -/

theorem mem_of_mem_dropWhile {α : Type} {p : α → Bool} {l : List α} {x : α}
    (h : x ∈ l.dropWhile p) : x ∈ l := by
  induction l with
  | nil => simp [List.dropWhile] at h
  | cons a as ih =>
    rw [List.dropWhile_cons] at h
    split at h
    · exact List.mem_cons_of_mem a (ih h)
    · exact h

theorem dropWhile_append_of_exists {α : Type} {p : α → Bool} {a b : List α}
    (h : ∃ x ∈ a, ¬ p x) : (a ++ b).dropWhile p = a.dropWhile p ++ b := by
  induction a with
  | nil => rcases h with ⟨x, hx, _⟩; exact absurd hx (List.not_mem_nil x)
  | cons c cs ih =>
    by_cases hc : p c
    · rcases h with ⟨x, hx, hpx⟩
      rcases List.mem_cons.mp hx with rfl | hx
      · exact absurd hc hpx
      · simp only [List.cons_append, List.dropWhile_cons_of_pos hc]
        exact ih ⟨x, hx, hpx⟩
    · simp only [List.cons_append, List.dropWhile_cons_of_neg hc]

/-! ### Lemmas about `pyTokensGo` / `pyTokens` -/

theorem pyTokensGo_all_space {w : List Char} (hw : ∀ c ∈ w, pyIsSpace c)
    (cur : List Char) :
    pyTokensGo cur w = if cur.isEmpty then [] else [cur.reverse] := by
  induction w generalizing cur with
  | nil => rfl
  | cons c cs ih =>
    have hc : pyIsSpace c := hw c (List.mem_cons_self c cs)
    have hcs : ∀ x ∈ cs, pyIsSpace x := fun x hx => hw x (List.mem_cons_of_mem c hx)
    simp only [pyTokensGo, if_pos hc, hc]
    by_cases hcur : cur.isEmpty
    · simp only [if_pos hcur, hcur, ih hcs, List.isEmpty_nil, if_true]
    · simp only [if_neg hcur, hcur, ih hcs, List.isEmpty_nil, if_true, if_false]

theorem pyTokensGo_append_space {w : List Char} (hw : ∀ c ∈ w, pyIsSpace c)
    (l cur : List Char) :
    pyTokensGo cur (l ++ w) = pyTokensGo cur l := by
  induction l generalizing cur with
  | nil =>
    rw [List.nil_append, pyTokensGo_all_space hw cur]
    rfl
  | cons c cs ih =>
    by_cases hc : pyIsSpace c
    · simp [pyTokensGo, hc, ih]
    · simp [pyTokensGo, hc, ih]

theorem pyTokens_lstrip (s : List Char) : pyTokens (lstrip s) = pyTokens s := by
  induction s with
  | nil => rfl
  | cons c cs ih =>
    by_cases hc : pyIsSpace c
    · simp only [lstrip, List.dropWhile_cons_of_pos hc] at *
      simp only [pyTokens, pyTokensGo, hc, if_true, List.isEmpty_nil] at *
      exact ih
    · simp only [lstrip, List.dropWhile_cons_of_neg hc]

theorem pyTokens_rstrip (s : List Char) : pyTokens (rstrip s) = pyTokens s := by
  have hdecomp : s = rstrip s ++ (s.reverse.takeWhile pyIsSpace).reverse := by
    have h := List.takeWhile_append_dropWhile (p := pyIsSpace) (l := s.reverse)
    calc s = s.reverse.reverse := (List.reverse_reverse s).symm
    _ = (s.reverse.takeWhile pyIsSpace ++ s.reverse.dropWhile pyIsSpace).reverse := by rw [h]
    _ = rstrip s ++ (s.reverse.takeWhile pyIsSpace).reverse := by
        rw [List.reverse_append]; rfl
  have hw : ∀ c ∈ (s.reverse.takeWhile pyIsSpace).reverse, pyIsSpace c := by
    intro c hc
    exact List.mem_takeWhile_imp (List.mem_reverse.mp hc)
  conv_rhs => rw [hdecomp]
  exact (pyTokensGo_append_space hw (rstrip s) []).symm

theorem pyTokens_pyStrip (s : List Char) : pyTokens (pyStrip s) = pyTokens s := by
  rw [pyStrip, pyTokens_rstrip, pyTokens_lstrip]

theorem pyTokens_nil_of_all_space {s : List Char} (h : ∀ c ∈ s, pyIsSpace c) :
    pyTokens s = [] := by
  rw [pyTokens, pyTokensGo_all_space h]
  rfl

theorem pyTokensGo_ne_nil {cur : List Char} (hcur : cur ≠ []) (l : List Char) :
    pyTokensGo cur l ≠ [] := by
  induction l generalizing cur with
  | nil =>
    simp only [pyTokensGo, List.isEmpty_iff]
    rw [if_neg hcur]
    simp
  | cons c cs ih =>
    simp only [pyTokensGo]
    by_cases hc : pyIsSpace c
    · rw [if_pos hc, if_neg (by simpa [List.isEmpty_iff] using hcur)]
      simp
    · rw [if_neg hc]
      exact ih (by simp)

theorem exists_not_space_of_pyTokens_ne_nil {s : List Char} (h : pyTokens s ≠ []) :
    ∃ c ∈ s, ¬ pyIsSpace c := by
  by_contra hall
  push_neg at hall
  exact h (pyTokens_nil_of_all_space (by simpa using hall))

theorem pyTokens_ne_nil_of_exists {s : List Char} (h : ∃ c ∈ s, ¬ pyIsSpace c) :
    pyTokens s ≠ [] := by
  induction s with
  | nil => rcases h with ⟨x, hx, _⟩; exact absurd hx (List.not_mem_nil x)
  | cons c cs ih =>
    by_cases hc : pyIsSpace c
    · have hred : pyTokens (c :: cs) = pyTokens cs := by
        simp [pyTokens, pyTokensGo, hc]
      rw [hred]
      rcases h with ⟨x, hx, hpx⟩
      rcases List.mem_cons.mp hx with rfl | hx
      · exact absurd hc hpx
      · exact ih ⟨x, hx, hpx⟩
    · have hred : pyTokens (c :: cs) = pyTokensGo [c] cs := by
        simp [pyTokens, pyTokensGo, hc]
      rw [hred]
      exact pyTokensGo_ne_nil (by simp) cs

theorem all_space_of_pyTokens_nil {s : List Char} (h : pyTokens s = []) :
    ∀ c ∈ s, pyIsSpace c := by
  by_contra hall
  push_neg at hall
  exact pyTokens_ne_nil_of_exists (by simpa using hall) h

/-! ### Lemmas about `lstrip`, `rstrip`, `pyStrip` -/

theorem mem_of_mem_lstrip {s : List Char} {x : Char} (h : x ∈ lstrip s) : x ∈ s :=
  mem_of_mem_dropWhile h

theorem mem_of_mem_rstrip {s : List Char} {x : Char} (h : x ∈ rstrip s) : x ∈ s := by
  rw [rstrip, List.mem_reverse] at h
  exact List.mem_reverse.mp (mem_of_mem_dropWhile h)

theorem mem_of_mem_pyStrip {s : List Char} {x : Char} (h : x ∈ pyStrip s) : x ∈ s :=
  mem_of_mem_lstrip (mem_of_mem_rstrip h)

theorem pyStrip_nil_of_all_space {s : List Char} (h : ∀ c ∈ s, pyIsSpace c) :
    pyStrip s = [] := by
  have h1 : lstrip s = [] := List.dropWhile_eq_nil_iff.mpr h
  rw [pyStrip, h1]
  rfl

theorem lstrip_ne_nil {s : List Char} (h : pyTokens s ≠ []) : lstrip s ≠ [] := by
  intro hnil
  exact h (by rw [← pyTokens_lstrip, hnil]; rfl)

theorem rstrip_ne_nil {s : List Char} (h : pyTokens s ≠ []) : rstrip s ≠ [] := by
  intro hnil
  exact h (by rw [← pyTokens_rstrip, hnil]; rfl)

theorem pyStrip_ne_nil {s : List Char} (h : pyTokens s ≠ []) : pyStrip s ≠ [] := by
  intro hnil
  exact h (by rw [← pyTokens_pyStrip, hnil]; rfl)

theorem lstrip_append {a b : List Char} (h : ∃ x ∈ a, ¬ pyIsSpace x) :
    lstrip (a ++ b) = lstrip a ++ b :=
  dropWhile_append_of_exists h

theorem rstrip_append {a b : List Char} (h : ∃ x ∈ b, ¬ pyIsSpace x) :
    rstrip (a ++ b) = a ++ rstrip b := by
  rcases h with ⟨x, hx, hpx⟩
  rw [rstrip, List.reverse_append,
    dropWhile_append_of_exists ⟨x, List.mem_reverse.mpr hx, hpx⟩,
    List.reverse_append, List.reverse_reverse]
  rfl

theorem pyStrip_append_semi {c1 c2 : List Char}
    (h1 : ∃ x ∈ c1, ¬ pyIsSpace x) (h2 : ∃ x ∈ c2, ¬ pyIsSpace x) :
    pyStrip (c1 ++ ';' :: c2) = lstrip c1 ++ ';' :: rstrip c2 := by
  rw [pyStrip, lstrip_append h1]
  have : lstrip c1 ++ ';' :: c2 = (lstrip c1 ++ [';']) ++ c2 := by
    rw [List.append_assoc]; rfl
  rw [this, rstrip_append h2, List.append_assoc]
  rfl

/-! ### Derived facts about `_get_commands_from_str` -/

theorem get_commands_from_str_no_semi {s : List Char}
    (hsemi : ';' ∉ s) (htok : pyTokens s ≠ []) :
    _get_commands_from_str s = [pyTokens s] := by
  have hsemi' : ';' ∉ pyStrip s := fun hm => hsemi (mem_of_mem_pyStrip hm)
  have hne : pyStrip s ≠ [] := pyStrip_ne_nil htok
  rw [_get_commands_from_str, splitSemi_of_not_mem hsemi', _get_commands]
  have : (0 : Nat) < (pyStrip s).length := List.length_pos.mpr hne
  simp only [List.filter_cons, this, decide_True, if_true, List.filter_nil,
    List.map_cons, List.map_nil]
  rw [pyTokens_pyStrip]

theorem get_commands_from_str_join {c1 c2 : List Char}
    (h1 : ';' ∉ c1) (h2 : ';' ∉ c2)
    (t1 : pyTokens c1 ≠ []) (t2 : pyTokens c2 ≠ []) :
    _get_commands_from_str (c1 ++ ';' :: c2) = [pyTokens c1, pyTokens c2] := by
  have e1 : ∃ x ∈ c1, ¬ pyIsSpace x := exists_not_space_of_pyTokens_ne_nil t1
  have e2 : ∃ x ∈ c2, ¬ pyIsSpace x := exists_not_space_of_pyTokens_ne_nil t2
  have hs1 : ';' ∉ lstrip c1 := fun hm => h1 (mem_of_mem_lstrip hm)
  have hs2 : ';' ∉ rstrip c2 := fun hm => h2 (mem_of_mem_rstrip hm)
  rw [_get_commands_from_str, pyStrip_append_semi e1 e2, splitSemi_append hs1,
    splitSemi_of_not_mem hs2, _get_commands]
  have l1 : (0 : Nat) < (lstrip c1).length := List.length_pos.mpr (lstrip_ne_nil t1)
  have l2 : (0 : Nat) < (rstrip c2).length := List.length_pos.mpr (rstrip_ne_nil t2)
  simp only [List.filter_cons, l1, l2, decide_True, if_true, List.filter_nil,
    List.map_cons, List.map_nil]
  rw [pyTokens_lstrip, pyTokens_rstrip]

/-! ### Lemmas about `parse_elements` and `run_vectors` -/

theorem parse_elements_map_str (xs : List (List Char)) :
    parse_elements (xs.map PyVal.str) =
      Except.ok ((xs.map _get_commands_from_str).flatten) := by
  induction xs with
  | nil => rfl
  | cons x xs ih =>
    simp only [List.map_cons, parse_elements, _get_commands_from_val, ih,
      List.flatten_cons]

theorem run_vectors_all_ok (env : ProcEnv) (vs : List (List (List Char)))
    (h : ∀ v ∈ vs, (env.launch v).isSome = true) :
    run_vectors env vs = (Except.ok (), vs) := by
  induction vs with
  | nil => rfl
  | cons v vs ih =>
    rcases Option.isSome_iff_exists.mp (h v (List.mem_cons_self v vs)) with ⟨c, hc⟩
    have ht : ∀ x ∈ vs, (env.launch x).isSome = true :=
      fun x hx => h x (List.mem_cons_of_mem v hx)
    simp only [run_vectors, hc, ih ht]

end ShellUtil

section Claims

open ShellUtil

/-- Claim C1, as stated, is false on the code: in `parse("a; ;b")` the
whitespace-only segment `" "` between the delimiters has `len > 0`, so the
`len(command) > 0` guard keeps it, and `" ".split()` is the zero-length
vector.  The parse of `"a; ;b"` is `[["a"], [], ["b"]]`, so not every
returned vector has length ≥ 1. -/
theorem C1_counterexample :
    _get_commands_from_str "a; ;b".toList = [["a".toList], [], ["b".toList]] ∧
    ¬ (∀ v ∈ _get_commands_from_str "a; ;b".toList, 1 ≤ v.length) := by
  constructor
  · decide
  · decide

/-- Claim C1 amended: every vector returned by `parse` on a string has
length ≥ 1 unless it comes from a kept segment (raw length > 0) consisting
entirely of whitespace, in which case it is the zero-length vector.  Only
literally empty segments are discarded by the `len(command) > 0` guard;
whitespace-only segments are kept and tokenize to `[]`. -/
theorem C1_amended (s : List Char) (v : List (List Char))
    (hv : v ∈ _get_commands_from_str s) :
    1 ≤ v.length ∨
      ∃ c ∈ keptSegments s, (∀ ch ∈ c, pyIsSpace ch) ∧ v = [] := by
  have hv' : v ∈ (keptSegments s).map pyTokens := hv
  rcases List.mem_map.mp hv' with ⟨c, hc, rfl⟩
  by_cases h0 : pyTokens c = []
  · exact Or.inr ⟨c, hc, all_space_of_pyTokens_nil h0, h0⟩
  · exact Or.inl (List.length_pos.mpr h0)

/-- Witness for `C1_amended` at the parse of `"a; ;b"` and its zero-length
middle vector, which indeed arises from a whitespace-only kept segment. -/
theorem C1_amended_witness :
    1 ≤ ([] : List (List Char)).length ∨
      ∃ c ∈ keptSegments "a; ;b".toList, (∀ ch ∈ c, pyIsSpace ch) ∧
        ([] : List (List Char)) = [] :=
  C1_amended "a; ;b".toList [] (by decide)

/-- Claim C2, as stated, is false on the code: `subprocess.run` is called
with its default `check=False`, so the first command exiting with status 1
raises nothing.  In `run("false; echo hi", {})` against an OS where `false`
exits 1 and `echo hi` exits 0, the call reports success and `echo hi` IS
launched. -/
theorem C2_counterexample :
    (subprocess_run envC2 (PyVal.str "false; echo hi".toList)).1 = Except.ok () ∧
    ["echo".toList, "hi".toList] ∈
      (subprocess_run envC2 (PyVal.str "false; echo hi".toList)).2 := by
  constructor
  · rfl
  · decide

/-- Claim C2 amended: a non-zero exit status is not reported as a failure and
does not stop the loop — `run("false; echo hi", {})` reports success and
launches both vectors in order; in general, whenever every parsed vector can
be launched, all of them are launched regardless of their exit statuses. -/
theorem C2_amended :
    subprocess_run envC2 (PyVal.str "false; echo hi".toList) =
      (Except.ok (), [["false".toList], ["echo".toList, "hi".toList]]) ∧
    ∀ (env : ProcEnv) (vs : List (List (List Char))),
      (∀ v ∈ vs, (env.launch v).isSome = true) →
        run_vectors env vs = (Except.ok (), vs) :=
  ⟨rfl, run_vectors_all_ok⟩

/-- Witness for `C2_amended`: its general part applied to the concrete
environment and the vector of `echo hi`. -/
theorem C2_amended_witness :
    run_vectors envC2 [["echo".toList, "hi".toList]] =
      (Except.ok (), [["echo".toList, "hi".toList]]) :=
  C2_amended.2 envC2 [["echo".toList, "hi".toList]] (by decide)

/-- Claim C3, as stated, is false on the code: parsing `"a; ;b"` produces the
kept segment `" "` with vector value `[]`, and the kept segment `"b"` with
value `["b"]`, but `parse(" " + ";" + "b")` is `[["b"]]`, not `[[], ["b"]]` —
the leading whitespace-only segment is deleted by the global `strip()` on
re-parse. -/
theorem C3_counterexample :
    " ".toList ∈ keptSegments "a; ;b".toList ∧
    pyTokens " ".toList = [] ∧
    "b".toList ∈ keptSegments "a; ;b".toList ∧
    pyTokens "b".toList = ["b".toList] ∧
    _get_commands_from_str (" ".toList ++ ';' :: "b".toList) ≠
      [pyTokens " ".toList, pyTokens "b".toList] := by
  refine ⟨by decide, by decide, by decide, by decide, by decide⟩

/-- Claim C3 amended: for any two kept segments `c1`, `c2` that `parse`
produced (from any inputs) whose vector values are non-empty, re-parsing
their rejoining `c1 + ";" + c2` reproduces exactly the two vectors
`[v1, v2]`.  (The restriction to non-empty vector values is forced: a
whitespace-only kept segment has value `[]` and disappears on re-parse.) -/
theorem C3_amended (s1 s2 c1 c2 : List Char)
    (h1 : c1 ∈ keptSegments s1) (h2 : c2 ∈ keptSegments s2)
    (t1 : pyTokens c1 ≠ []) (t2 : pyTokens c2 ≠ []) :
    _get_commands_from_str (c1 ++ ';' :: c2) = [pyTokens c1, pyTokens c2] := by
  have hs1 : ';' ∉ c1 :=
    not_mem_of_mem_splitSemi (List.mem_of_mem_filter h1)
  have hs2 : ';' ∉ c2 :=
    not_mem_of_mem_splitSemi (List.mem_of_mem_filter h2)
  exact get_commands_from_str_join hs1 hs2 t1 t2

/-- Witness for `C3_amended`: the kept segments `"ls -l"` and `" pwd"` of
`parse("ls -l; pwd;")` rejoin to a string parsing back to the same two
vectors. -/
theorem C3_amended_witness :
    _get_commands_from_str ("ls -l".toList ++ ';' :: " pwd".toList) =
      [pyTokens "ls -l".toList, pyTokens " pwd".toList] :=
  C3_amended "ls -l; pwd;".toList "ls -l; pwd;".toList
    "ls -l".toList " pwd".toList (by decide) (by decide) (by decide) (by decide)

/-- Claim C4: for every string with no `';'` and non-empty content (at least
one whitespace token), `parse` returns exactly one vector, the string's
whitespace tokens in left-to-right order with whitespace runs collapsed —
which is what `pyTokens` computes. -/
theorem C4_single_command (s : List Char)
    (hsemi : ';' ∉ s) (htok : pyTokens s ≠ []) :
    parse_shell_command (PyVal.str s) = Except.ok [pyTokens s] := by
  show Except.ok (_get_commands_from_str s) = _
  rw [get_commands_from_str_no_semi hsemi htok]

/-- Witness for `C4_single_command` at `"ls -l"`, whose single vector is
`["ls", "-l"]`. -/
theorem C4_single_command_witness :
    parse_shell_command (PyVal.str "ls -l".toList) =
      Except.ok [pyTokens "ls -l".toList] :=
  C4_single_command "ls -l".toList (by decide) (by decide)

/-- Claim C5: on a list or tuple of strings, `parse` returns the in-order
concatenation of `_get_commands_from_str` (the spec's `splitString`) applied
to each element; in particular `parse(["a;b", "c"])` is
`[["a"], ["b"], ["c"]]`. -/
theorem C5_sequence_concat :
    (∀ xs : List (List Char),
      parse_shell_command (PyVal.list (xs.map PyVal.str)) =
        Except.ok ((xs.map _get_commands_from_str).flatten) ∧
      parse_shell_command (PyVal.tuple (xs.map PyVal.str)) =
        Except.ok ((xs.map _get_commands_from_str).flatten)) ∧
    parse_shell_command (PyVal.list [PyVal.str "a;b".toList, PyVal.str "c".toList]) =
      Except.ok [["a".toList], ["b".toList], ["c".toList]] := by
  refine ⟨fun xs => ⟨?_, ?_⟩, rfl⟩
  · exact parse_elements_map_str xs
  · exact parse_elements_map_str xs

/-- Claim C6: empty segments from consecutive or trailing delimiters are
dropped while non-empty commands are kept in order:
`parse("ls;;pwd") = [["ls"], ["pwd"]]` and
`parse("ls -l; pwd;") = [["ls", "-l"], ["pwd"]]`. -/
theorem C6_empty_segments_dropped :
    parse_shell_command (PyVal.str "ls;;pwd".toList) =
      Except.ok [["ls".toList], ["pwd".toList]] ∧
    parse_shell_command (PyVal.str "ls -l; pwd;".toList) =
      Except.ok [["ls".toList, "-l".toList], ["pwd".toList]] :=
  ⟨rfl, rfl⟩

/-- Claim C7: on any string that is empty or whitespace-only, `parse`
returns the empty sequence of vectors. -/
theorem C7_whitespace_only_empty (s : List Char) (h : ∀ c ∈ s, pyIsSpace c) :
    parse_shell_command (PyVal.str s) = Except.ok [] := by
  show Except.ok (_get_commands_from_str s) = _
  rw [_get_commands_from_str, pyStrip_nil_of_all_space h]
  rfl

/-- Witness for `C7_whitespace_only_empty` at `"   "`; the empty string is
the `s = []` instance of the same theorem. -/
theorem C7_whitespace_only_empty_witness :
    parse_shell_command (PyVal.str "   ".toList) = Except.ok [] :=
  C7_whitespace_only_empty "   ".toList (by decide)

/-- Claim C8: an input whose outer runtime type is neither `str` nor
`list`/`tuple` (here: any integer, e.g. `42`) makes `parse` raise
`TypeError` (the spec's InvalidSpecType), and `subprocess_run` on such an
input launches no child process at all — the error surfaces during parsing,
before the launch loop. -/
theorem C8_invalid_spec_type (n : Int) (env : ProcEnv) :
    parse_shell_command (PyVal.int n) = Except.error PyError.typeError ∧
    subprocess_run env (PyVal.int n) = (Except.error PyError.typeError, []) :=
  ⟨rfl, rfl⟩

/-- Claim C9: the type check of `parse_shell_command` applies only to the
outer value — a list whose element is itself a list (the shape the
`subprocess_run` docstring advertises) passes the `isinstance` test, and the
element then hits `.strip()` inside `_get_commands_from_str`, raising
`AttributeError` rather than the `TypeError` of the final branch. -/
theorem C9_inner_type_not_checked :
    parse_shell_command
        (PyVal.list [PyVal.list [PyVal.str "ls".toList, PyVal.str "-l".toList]]) =
      Except.error PyError.attributeError ∧
    PyError.attributeError ≠ PyError.typeError := by
  exact ⟨rfl, by decide⟩

/-- Claim C10: `parse` is total on strings — for every string input it
returns a value (namely `_get_commands_from_str` of the input) and never
raises: the string branch is pure list manipulation with no failing
operation. -/
theorem C10_total_on_strings (s : List Char) :
    parse_shell_command (PyVal.str s) = Except.ok (_get_commands_from_str s) :=
  rfl

end Claims
